import Mathlib

/-!
# Verification of the harmony separator (`separate_harmony_by_original_track_rank`)

This file gives a shallow embedding of the core transformation of
`src/main.py`: the function that, per original MIDI track, flattens
relative times to absolute times, groups simultaneous events, routes
note-offs / pitch-ranked note-ons / other messages to globally allocated
output tracks (with retrigger resolution), and finally materializes each
output track back into a relative-time message list ending in an
`end_of_track` marker.

Python dictionaries are modelled as association lists (`alistLookup`,
`alistSet`, `alistErase`, and `bufAppend` for the output-event buffer);
Python's stable `list.sort` / `sorted` is modelled by Mathlib's stable
`List.insertionSort`.
-/

set_option maxRecDepth 10000
set_option linter.unnecessarySimpa false

/-- A MIDI message, as classified by the source: `note_on` / `note_off`
carry channel, pitch (note number) and velocity; any other message
(tempo, program change, ...) is `other` with an opaque payload, except
for the `end_of_track` meta marker which the materializer tests for. -/
inductive Msg : Type where
  | note_on (channel note velocity : Nat)
  | note_off (channel note velocity : Nat)
  | other (payload : Nat)
  | end_of_track
deriving DecidableEq, Repr

/-- An event of the output buffer: (absolute time, message), mirroring the
`(abs_time, msg)` pairs stored in `all_output_events_for_new_tracks`. -/
abbrev TEvent := Nat × Msg

/-- The message goes to the note-on phase: `msg.type == 'note_on' and msg.velocity > 0`. -/
def Msg.isOnMsg : Msg → Bool
  | .note_on _ _ v => decide (0 < v)
  | _ => false

/-- The message goes to the note-off phase:
`msg.type == 'note_off' or (msg.type == 'note_on' and msg.velocity == 0)`. -/
def Msg.isOffMsg : Msg → Bool
  | .note_off _ _ _ => true
  | .note_on _ _ v => decide (v = 0)
  | _ => false

/-- The `msg.note` field (0 for non-note messages, which never reach a use site). -/
def Msg.pitch : Msg → Nat
  | .note_on _ n _ => n
  | .note_off _ n _ => n
  | _ => 0

/-- The `msg.channel` field (0 for non-note messages, which never reach a use site). -/
def Msg.channel : Msg → Nat
  | .note_on c _ _ => c
  | .note_off c _ _ => c
  | _ => 0

/-- Dictionary lookup `d.get(k)` / `k in d` on an association list. -/
def alistLookup {α : Type} (l : List (Nat × α)) (k : Nat) : Option α :=
  match l with
  | [] => none
  | (k', v) :: rest => if k' = k then some v else alistLookup rest k

/-- Dictionary assignment `d[k] = v`: overwrite the (first) binding of `k`
in place, or append a fresh binding at the end. -/
def alistSet {α : Type} (l : List (Nat × α)) (k : Nat) (v : α) : List (Nat × α) :=
  match l with
  | [] => [(k, v)]
  | (k', v') :: rest => if k' = k then (k, v) :: rest else (k', v') :: alistSet rest k v

/-- Dictionary deletion `del d[k]`: drop the (first) binding of `k`. -/
def alistErase {α : Type} (l : List (Nat × α)) (k : Nat) : List (Nat × α) :=
  match l with
  | [] => []
  | (k', v') :: rest => if k' = k then rest else (k', v') :: alistErase rest k

/-- The output-event buffer operation
`if idx not in d: d[idx] = []` followed by `d[idx].append(e)`. -/
def bufAppend (bufs : List (Nat × List TEvent)) (idx : Nat) (e : TEvent) :
    List (Nat × List TEvent) :=
  match bufs with
  | [] => [(idx, [e])]
  | (k, es) :: rest => if k = idx then (k, es ++ [e]) :: rest else (k, es) :: bufAppend rest idx e

/-- The materializer's read `d.get(idx, [])`. -/
def bufGet (bufs : List (Nat × List TEvent)) (idx : Nat) : List TEvent :=
  (alistLookup bufs idx).getD []

/-- Global state shared across all original tracks:
`all_output_events_for_new_tracks` and `next_global_output_track_idx_to_assign`. -/
structure GState : Type where
  buffers : List (Nat × List TEvent)
  nextIdx : Nat
deriving DecidableEq, Repr

/-- Per-original-track state: `rank_to_global_output_idx_map_this_orig_track`
(RankMap), `active_notes_pitch_to_global_output_idx_this_orig_track`
(ActivePitchMap) and `global_output_idx_for_non_notes_this_orig_track`
(NonNoteTarget; the sentinel `-1` is modelled as `none`). -/
structure TrackState : Type where
  rankMap : List (Nat × Nat)
  active : List (Nat × Nat)
  nonNoteTarget : Option Nat
deriving DecidableEq, Repr

/-- Initial global state. -/
def initG : GState := { buffers := [], nextIdx := 0 }

/-- Fresh per-track state allocated at the start of each original track. -/
def initTS : TrackState := { rankMap := [], active := [], nonNoteTarget := none }

/-- Time flattening: running sum of the relative `msg.time` deltas
(`current_abs_time_for_this_orig_track += msg.time`). -/
def toAbs (cur : Nat) : List (Nat × Msg) → List TEvent
  | [] => []
  | (dt, m) :: rest => (cur + dt, m) :: toAbs (cur + dt) rest

/-- The stable ascending sort by absolute time
(`events.sort(key=lambda x: x['abs_time'])`; Python's sort is stable,
modelled by the stable `List.insertionSort`). -/
def sortByTime (l : List TEvent) : List TEvent :=
  List.insertionSort (fun a b => a.1 ≤ b.1) l

/-- The stable descending-pitch sort of a time group's note-ons
(`sorted(note_ons, key=lambda m: m.note, reverse=True)`; stable, ties keep
original order). -/
def sortOnsDesc (l : List Msg) : List Msg :=
  List.insertionSort (fun a b => Msg.pitch b ≤ Msg.pitch a) l

/-- Simultaneity grouping: collect runs of equal absolute time from the
(already time-sorted) event list, preserving the within-time order — the
dictionary `events_grouped_by_time` iterated over its sorted keys. -/
def groupByTime : List TEvent → List (Nat × List Msg)
  | [] => []
  | (t, m) :: rest =>
    match groupByTime rest with
    | [] => [(t, [m])]
    | (t', ms) :: gs => if t = t' then (t, m :: ms) :: gs else (t, [m]) :: (t', ms) :: gs

/-- Rank allocation (source lines 114-128): if the rank is new for this
original track, allocate the next global index, record it in RankMap, set
NonNoteTarget when this is rank 0 and no target exists yet, and advance
the global counter; otherwise reuse the recorded index. Returns
(target index, new global state, new track state). -/
def allocRank (g : GState) (ts : TrackState) (rank : Nat) : Nat × GState × TrackState :=
  match alistLookup ts.rankMap rank with
  | some idx => (idx, g, ts)
  | none =>
      (g.nextIdx,
       { g with nextIdx := g.nextIdx + 1 },
       { ts with
           rankMap := alistSet ts.rankMap rank g.nextIdx,
           nonNoteTarget :=
             if rank = 0 ∧ ts.nonNoteTarget = none then some g.nextIdx
             else ts.nonNoteTarget })

/-- Note-off phase for one message (source lines 92-100): if the pitch is
active, append the off message to the owning output buffer and remove the
active entry; otherwise drop it silently. -/
def processOff (g : GState) (ts : TrackState) (t : Nat) (m : Msg) : GState × TrackState :=
  match alistLookup ts.active m.pitch with
  | some idx =>
      ({ g with buffers := bufAppend g.buffers idx (t, m) },
       { ts with active := alistErase ts.active m.pitch })
  | none => (g, ts)

/-- Note-on phase for one ranked message (source lines 109-148): resolve
the target via `allocRank`; if the pitch is already active, append a
synthetic `note_off` (velocity 0, channel and pitch copied from this
note-on) to the previous owner's buffer; append the note-on to the target
buffer; overwrite the ActivePitchMap entry with the target. -/
def processOn (g : GState) (ts : TrackState) (t rank : Nat) (m : Msg) : GState × TrackState :=
  let a := allocRank g ts rank
  let g2 :=
    match alistLookup a.2.2.active m.pitch with
    | some prev =>
        { a.2.1 with
            buffers := bufAppend a.2.1.buffers prev (t, Msg.note_off m.channel m.pitch 0) }
    | none => a.2.1
  ({ g2 with buffers := bufAppend g2.buffers a.1 (t, m) },
   { a.2.2 with active := alistSet a.2.2.active m.pitch a.1 })

/-- Note-off phase over the whole group, in group order. -/
def processOffs (g : GState) (ts : TrackState) (t : Nat) : List Msg → GState × TrackState
  | [] => (g, ts)
  | m :: ms =>
    let p := processOff g ts t m
    processOffs p.1 p.2 t ms

/-- Note-on phase over the pitch-sorted group with `enumerate`-style ranks. -/
def processOns (g : GState) (ts : TrackState) (t rank : Nat) : List Msg → GState × TrackState
  | [] => (g, ts)
  | m :: ms =>
    let p := processOn g ts t rank m
    processOns p.1 p.2 t (rank + 1) ms

/-- Append a run of events for one absolute time to one output buffer. -/
def appendEvents (g : GState) (idx t : Nat) : List Msg → GState
  | [] => g
  | m :: ms => appendEvents { g with buffers := bufAppend g.buffers idx (t, m) } idx t ms

/-- Other-message phase (source lines 151-162): when the group has other
messages, resolve (allocating if NonNoteTarget is unset) the non-note
target and append all of them there. -/
def processOthers (g : GState) (ts : TrackState) (t : Nat) (msgs : List Msg) :
    GState × TrackState :=
  match msgs with
  | [] => (g, ts)
  | _ :: _ =>
    match ts.nonNoteTarget with
    | some idx => (appendEvents g idx t msgs, ts)
    | none =>
        (appendEvents { g with nextIdx := g.nextIdx + 1 } g.nextIdx t msgs,
         { ts with nonNoteTarget := some g.nextIdx })

/-- One time group (source lines 76-162): partition into note-ons,
note-offs and others (each preserving group order), then run the off
phase, the ranked on phase on the descending-pitch sort, and the other
phase, in that order. -/
def processGroup (g : GState) (ts : TrackState) (t : Nat) (msgs : List Msg) :
    GState × TrackState :=
  let offs := msgs.filter Msg.isOffMsg
  let ons := msgs.filter Msg.isOnMsg
  let others := msgs.filter fun m => !m.isOnMsg && !m.isOffMsg
  let p1 := processOffs g ts t offs
  let p2 := processOns p1.1 p1.2 t 0 (sortOnsDesc ons)
  processOthers p2.1 p2.2 t others

/-- All time groups of one original track, in ascending time order. -/
def processGroups (g : GState) (ts : TrackState) : List (Nat × List Msg) → GState × TrackState
  | [] => (g, ts)
  | (t, msgs) :: gs =>
    let p := processGroup g ts t msgs
    processGroups p.1 p.2 gs

/-- One original track (source lines 40-162): flatten to absolute time,
sort (stably) by time, group simultaneous events, and process the groups
starting from a fresh per-track state. -/
def processTrack (g : GState) (track : List (Nat × Msg)) : GState × TrackState :=
  processGroups g initTS (groupByTime (sortByTime (toAbs 0 track)))

/-- All original tracks in file order, threading the global state and
collecting each track's final per-track state (which the source discards;
kept here to state the balance invariant). -/
def processTracksStates (g : GState) : List (List (Nat × Msg)) → GState × List TrackState
  | [] => (g, [])
  | tr :: trs =>
    let p := processTrack g tr
    let r := processTracksStates p.1 trs
    (r.1, p.2 :: r.2)

/-- The global state after processing all original tracks. -/
def processTracks (tracks : List (List (Nat × Msg))) : GState :=
  (processTracksStates initG tracks).1

/-- Relative-time conversion of the materializer:
`delta_time = abs_time - last_abs_time`. -/
def toDeltas (last : Nat) : List TEvent → List (Nat × Msg)
  | [] => []
  | (t, m) :: rest => (t - last, m) :: toDeltas t rest

/-- The check `any(msg.type == 'end_of_track' for msg in track)`. -/
def hasEOT (l : List (Nat × Msg)) : Bool :=
  l.any fun e => e.2 = Msg.end_of_track

/-- Materialize one output track (source lines 171-194): stable-sort the
buffered events by absolute time, convert to relative time, and append an
`end_of_track` marker unless one is already present. -/
def materializeTrack (events : List TEvent) : List (Nat × Msg) :=
  let rel := toDeltas 0 (sortByTime events)
  if hasEOT rel then rel else rel ++ [(0, Msg.end_of_track)]

/-- Materialize every allocated output-track index, in index order
(`for new_track_idx in range(num_final_output_tracks)`). -/
def materialize (g : GState) : List (List (Nat × Msg)) :=
  (List.range g.nextIdx).map fun i => materializeTrack (bufGet g.buffers i)

/-- The whole transformation: decoded input tracks to pre-encoding output
tracks. -/
def transform (tracks : List (List (Nat × Msg))) : List (List (Nat × Msg)) :=
  materialize (processTracks tracks)

/-- Number of note-on events in a buffered event list. -/
def countOn (l : List TEvent) : Nat :=
  (l.filter fun e => e.2.isOnMsg).length

/-- Number of note-off events (original or synthetic, including
velocity-0 note-ons) in a buffered event list. -/
def countOff (l : List TEvent) : Nat :=
  (l.filter fun e => e.2.isOffMsg).length

/-- Number of ActivePitchMap entries currently owned by output index `i`. -/
def activeCount (a : List (Nat × Nat)) (i : Nat) : Nat :=
  (a.filter fun e => e.2 == i).length

/-- Unmatched note-ons attributed to output index `i` by the final
per-track states: notes still sounding at end of input. -/
def leftover (states : List TrackState) (i : Nat) : Nat :=
  (states.map fun ts => activeCount ts.active i).sum

/-- The keys of an association list are pairwise distinct (every Python
dict satisfies this). -/
def keysNodup (a : List (Nat × Nat)) : Prop :=
  (a.map Prod.fst).Nodup

/-- Balance invariant relative to an ActivePitchMap `a` and a debt
`extra` left by previously completed original tracks: per output index,
note-ons exceed note-offs by exactly the active entries owned there. -/
def balancedW (g : GState) (a : List (Nat × Nat)) (extra : Nat → Nat) : Prop :=
  ∀ i, countOn (bufGet g.buffers i) = countOff (bufGet g.buffers i) + activeCount a i + extra i

/-- Every ActivePitchMap entry (pitch, index) is witnessed by a note-on
event of that pitch already buffered on that output index. -/
def witnessedOn (g : GState) (a : List (Nat × Nat)) : Prop :=
  ∀ q ∈ a, ∃ e ∈ bufGet g.buffers q.2, e.2.isOnMsg = true ∧ e.2.pitch = q.1

/-- Buffer growth: every buffered event of `g` is still buffered in `g'`. -/
def bufLe (g g' : GState) : Prop :=
  ∀ i e, e ∈ bufGet g.buffers i → e ∈ bufGet g'.buffers i

/-- Every allocated output index already holds at least one event. -/
def allocNonempty (g : GState) : Prop :=
  ∀ i, i < g.nextIdx → bufGet g.buffers i ≠ []

instance : IsTotal TEvent (fun a b => a.1 ≤ b.1) :=
  ⟨fun a b => Nat.le_total a.1 b.1⟩

instance : IsTrans TEvent (fun a b => a.1 ≤ b.1) :=
  ⟨fun _ _ _ h h' => Nat.le_trans h h'⟩

instance : IsTotal Msg (fun a b => Msg.pitch b ≤ Msg.pitch a) :=
  ⟨fun a b => Nat.le_total (Msg.pitch b) (Msg.pitch a)⟩

instance : IsTrans Msg (fun a b => Msg.pitch b ≤ Msg.pitch a) :=
  ⟨fun _ _ _ h h' => Nat.le_trans h' h⟩

/-! ## Generic lemmas about the dictionary model -/

theorem alistLookup_alistSet {α : Type} (l : List (Nat × α)) (k k' : Nat) (v : α) :
    alistLookup (alistSet l k v) k' = if k = k' then some v else alistLookup l k' := by
  induction l with
  | nil => rfl
  | cons e rest ih =>
      obtain ⟨ek, ev⟩ := e
      by_cases hek : ek = k
      · subst hek
        by_cases h2 : ek = k' <;> simp [alistSet, alistLookup, h2]
      · by_cases h2 : ek = k' <;> by_cases h3 : k = k'
        · exact absurd (h3.trans h2.symm) fun h => hek h.symm
        · have h4 : ¬k' = k := fun h => h3 h.symm
          simp [alistSet, alistLookup, hek, h2, h3, h4]
        · rw [h3] at ih
          simp at ih
          simp [alistSet, alistLookup, hek, h2, h3, ih]
        · simp [alistSet, alistLookup, hek, h2, h3, ih]

theorem bufGet_bufAppend (b : List (Nat × List TEvent)) (j i : Nat) (e : TEvent) :
    bufGet (bufAppend b j e) i = if j = i then bufGet b i ++ [e] else bufGet b i := by
  induction b with
  | nil => by_cases h : j = i <;> simp [bufAppend, bufGet, alistLookup, h]
  | cons p rest ih =>
      obtain ⟨k, es⟩ := p
      by_cases hk : k = j
      · subst hk
        by_cases hki : k = i <;> simp [bufAppend, bufGet, alistLookup, hki]
      · by_cases hki : k = i
        · subst hki
          have hji : j ≠ k := fun h => hk h.symm
          simp [bufAppend, bufGet, alistLookup, hk, hji]
        · simp only [bufAppend, if_neg hk]
          simp only [bufGet, alistLookup, if_neg hki] at ih ⊢
          exact ih

/-! ## Shape lemmas for the single-step routines -/

theorem allocRank_active (g : GState) (ts : TrackState) (r : Nat) :
    (allocRank g ts r).2.2.active = ts.active := by
  unfold allocRank
  cases alistLookup ts.rankMap r <;> rfl

theorem allocRank_buffers (g : GState) (ts : TrackState) (r : Nat) :
    (allocRank g ts r).2.1.buffers = g.buffers := by
  unfold allocRank
  cases alistLookup ts.rankMap r <;> rfl

theorem allocRank_of_lookup (g : GState) (ts : TrackState) (r i : Nat)
    (h : alistLookup ts.rankMap r = some i) :
    allocRank g ts r = (i, g, ts) := by
  unfold allocRank
  rw [h]

/-! ## Stability of the time sort -/

theorem filter_orderedInsert_time (t : Nat) (a : TEvent) (l : List TEvent) :
    (List.orderedInsert (fun x y => x.1 ≤ y.1) a l).filter (fun e => e.1 == t) =
      if a.1 == t then a :: l.filter (fun e => e.1 == t)
      else l.filter (fun e => e.1 == t) := by
  induction l with
  | nil => by_cases h : a.1 = t <;> simp [List.orderedInsert, List.filter_cons, h]
  | cons b bs ih =>
      simp only [List.orderedInsert]
      by_cases hab : a.1 ≤ b.1
      · rw [if_pos hab]
        by_cases ha : a.1 = t <;> simp [List.filter_cons, ha]
      · rw [if_neg hab]
        have hba : b.1 < a.1 := Nat.lt_of_not_le hab
        rw [List.filter_cons, ih]
        by_cases ha : a.1 = t
        · have hb : ¬b.1 = t := by omega
          simp [List.filter_cons, ha, hb]
        · by_cases hb : b.1 = t <;> simp [List.filter_cons, ha, hb]

theorem sortByTime_filter_time (l : List TEvent) (t : Nat) :
    (sortByTime l).filter (fun e => e.1 == t) = l.filter (fun e => e.1 == t) := by
  induction l with
  | nil => rfl
  | cons e l ih =>
      unfold sortByTime at ih ⊢
      simp only [List.insertionSort]
      rw [filter_orderedInsert_time]
      by_cases h : e.1 = t <;> simp [h, List.filter_cons, ih]

/-! ## Claim theorems (first batch) -/

/-- C1: when a NoteOn for an already-active pitch is processed, the
synthetic NoteOff (for that pitch, at the new onset's time) is appended to
the previous owner's buffer, the NoteOn is then appended to its rank's
target buffer, and the ActivePitchMap entry is overwritten to the new
target — the retrigger check having read the previous owner `prev` from
the pre-state. In particular, for one original track with NoteOn(60) at
tick 0 and again at tick 100 with no intervening NoteOff, output track 0's
buffer receives NoteOn(60)@0, synthetic NoteOff(60)@100, NoteOn(60)@100. -/
theorem retrigger_forces_off_then_on :
    (∀ (g : GState) (ts : TrackState) (t r c p v prev : Nat),
        alistLookup ts.active p = some prev →
        processOn g ts t r (Msg.note_on c p v) =
          ({ (allocRank g ts r).2.1 with
               buffers :=
                 bufAppend
                   (bufAppend (allocRank g ts r).2.1.buffers prev (t, Msg.note_off c p 0))
                   (allocRank g ts r).1 (t, Msg.note_on c p v) },
           { (allocRank g ts r).2.2 with
               active := alistSet ts.active p (allocRank g ts r).1 })) ∧
      processTracks [[(0, Msg.note_on 0 60 64), (100, Msg.note_on 0 60 64)]] =
        { buffers :=
            [(0, [(0, Msg.note_on 0 60 64), (100, Msg.note_off 0 60 0),
              (100, Msg.note_on 0 60 64)])],
          nextIdx := 1 } := by
  constructor
  · intro g ts t r c p v prev h
    simp only [processOn, Msg.pitch, Msg.channel, allocRank_active, h]
  · rfl

/-- Witness for C1: a concrete retrigger step (pitch 60 active on output
index 0, rank 0 already mapped to 0). -/
theorem retrigger_forces_off_then_on_witness :
    alistLookup ([(60, 0)] : List (Nat × Nat)) 60 = some 0 ∧
      processOn { buffers := [(0, [(0, Msg.note_on 0 60 64)])], nextIdx := 1 }
          { rankMap := [(0, 0)], active := [(60, 0)], nonNoteTarget := some 0 } 100 0
          (Msg.note_on 0 60 64) =
        ({ buffers :=
             [(0, [(0, Msg.note_on 0 60 64), (100, Msg.note_off 0 60 0),
               (100, Msg.note_on 0 60 64)])],
           nextIdx := 1 },
         { rankMap := [(0, 0)], active := [(60, 0)], nonNoteTarget := some 0 }) := by
  refine ⟨rfl, ?_⟩
  exact retrigger_forces_off_then_on.1
    { buffers := [(0, [(0, Msg.note_on 0 60 64)])], nextIdx := 1 }
    { rankMap := [(0, 0)], active := [(60, 0)], nonNoteTarget := some 0 } 100 0 0 60 64 0 rfl

/-- C2: the note-ons of a time group are stably sorted by pitch descending
(the sorted list is a permutation of the group's note-ons and is pairwise
nonincreasing in pitch; the position in it is the chord rank). For the
3-note-chord input (60, 64, 67 on at tick 0, released at tick 480) the
transformation yields exactly 3 output tracks: track 0 carries pitch 67,
track 1 pitch 64, track 2 pitch 60, each closing with its NoteOff at
relative time 480 (followed by the end-of-track marker). -/
theorem noteOns_ranked_by_descending_pitch :
    (∀ l : List Msg,
        (sortOnsDesc l).Perm l ∧
          (sortOnsDesc l).Pairwise fun a b => Msg.pitch b ≤ Msg.pitch a) ∧
      transform
          [[(0, Msg.note_on 0 60 64), (0, Msg.note_on 0 64 64), (0, Msg.note_on 0 67 64),
            (480, Msg.note_off 0 60 64), (0, Msg.note_off 0 64 64),
            (0, Msg.note_off 0 67 64)]] =
        [[(0, Msg.note_on 0 67 64), (480, Msg.note_off 0 67 64), (0, Msg.end_of_track)],
         [(0, Msg.note_on 0 64 64), (480, Msg.note_off 0 64 64), (0, Msg.end_of_track)],
         [(0, Msg.note_on 0 60 64), (480, Msg.note_off 0 60 64), (0, Msg.end_of_track)]] :=
  ⟨fun l => ⟨List.perm_insertionSort _ l, List.sorted_insertionSort _ l⟩, rfl⟩

/-- C4 counterexample: for one original track with a tempo (Other) message
at tick 0 followed by a NoteOn at tick 0, the first event inserted into
output track 0 is the NoteOn, not the tempo message. Events are appended
to a track's buffer at processing time, immediately after any allocation,
so if a new output track had been allocated for the tempo message first
(as the claim states), the tempo event would head the buffer; instead the
note-on phase runs before the other-message phase within the tick-0 group,
allocates the track for rank 0, and the tempo message only reuses it. -/
theorem scenarioD_noteOn_precedes_tempo :
    bufGet (processTrack initG [(0, Msg.other 7), (0, Msg.note_on 0 60 64)]).1.buffers 0 =
      [(0, Msg.note_on 0 60 64), (0, Msg.other 7)] ∧
      (bufGet (processTrack initG
            [(0, Msg.other 7), (0, Msg.note_on 0 60 64)]).1.buffers 0).head? ≠
        some ((0 : Nat), Msg.other 7) :=
  ⟨rfl, by decide⟩

/-- C4 amended: for that input the rank-0 NoteOn is processed first (the
note-on phase precedes the other-message phase inside a time group): it
allocates output track 0 and sets NonNoteTarget to 0; the tempo message
then reuses NonNoteTarget, so both messages land on output-track index 0,
note-on first, and exactly one output track is allocated. -/
theorem scenarioD_shared_output_track :
    processTracks [[(0, Msg.other 7), (0, Msg.note_on 0 60 64)]] =
      { buffers := [(0, [(0, Msg.note_on 0 60 64), (0, Msg.other 7)])], nextIdx := 1 } ∧
      (processTrack initG [(0, Msg.other 7), (0, Msg.note_on 0 60 64)]).2 =
        { rankMap := [(0, 0)], active := [(60, 0)], nonNoteTarget := some 0 } :=
  ⟨rfl, rfl⟩

/-- C5: the materializer emits exactly one output track per index below
the final value of the global allocation counter, so the number of output
tracks equals the number of allocations. For two original tracks of one
note each, exactly 2 output tracks result, track 0's note on output index
0 and track 1's note on output index 1 (original-track processing order). -/
theorem output_count_eq_final_counter :
    (∀ g : GState, (materialize g).length = g.nextIdx) ∧
      transform
          [[(0, Msg.note_on 0 60 64), (480, Msg.note_off 0 60 64)],
           [(0, Msg.note_on 0 72 64), (480, Msg.note_off 0 72 64)]] =
        [[(0, Msg.note_on 0 60 64), (480, Msg.note_off 0 60 64), (0, Msg.end_of_track)],
         [(0, Msg.note_on 0 72 64), (480, Msg.note_off 0 72 64), (0, Msg.end_of_track)]] := by
  refine ⟨fun g => ?_, rfl⟩
  simp [materialize]

/-- C6: a NoteOff (or velocity-0 NoteOn) whose pitch has no ActivePitchMap
entry is dropped silently: the note-off step returns the global and track
state unchanged — nothing is appended to any output buffer and no state
changes. (The whole transformation is a total function of the input, so no
event ordering can make it fail.) -/
theorem unmatched_noteOff_dropped (g : GState) (ts : TrackState) (t : Nat) (m : Msg)
    (h : alistLookup ts.active m.pitch = none) :
    processOff g ts t m = (g, ts) := by
  unfold processOff
  rw [h]

/-- Witness for C6: dropping a NoteOff for pitch 60 in the empty state. -/
theorem unmatched_noteOff_dropped_witness :
    alistLookup initTS.active (Msg.note_off 0 60 0).pitch = none ∧
      processOff initG initTS 5 (Msg.note_off 0 60 0) = (initG, initTS) :=
  ⟨rfl, unmatched_noteOff_dropped initG initTS 5 (Msg.note_off 0 60 0) rfl⟩

/-- C7: the materializer's sort by absolute time is stable — for every
fixed absolute time `t`, the subsequence of events at time `t` is exactly
the buffer-insertion-order subsequence. Consequently, in the retrigger
scenario the synthetic NoteOff and its triggering NoteOn, routed to the
same output track at the same absolute time 100, keep the off-before-on
order in the materialized track. -/
theorem materializer_sort_stable :
    (∀ (l : List TEvent) (t : Nat),
        (sortByTime l).filter (fun e => e.1 == t) = l.filter (fun e => e.1 == t)) ∧
      transform [[(0, Msg.note_on 0 60 64), (100, Msg.note_on 0 60 64)]] =
        [[(0, Msg.note_on 0 60 64), (100, Msg.note_off 0 60 0), (0, Msg.note_on 0 60 64),
          (0, Msg.end_of_track)]] :=
  ⟨sortByTime_filter_time, rfl⟩

/-- C10: the synthetic NoteOff generated by the retrigger check is a
`note_off` with velocity 0 whose channel and pitch are copied from the
retriggering NoteOn; the resulting buffers depend on the earlier note only
through its owner index `prev`, never through its message fields. -/
theorem synthetic_off_copies_channel_and_pitch (g : GState) (ts : TrackState)
    (t r c p v prev : Nat) (h : alistLookup ts.active p = some prev) :
    (processOn g ts t r (Msg.note_on c p v)).1.buffers =
      bufAppend (bufAppend (allocRank g ts r).2.1.buffers prev (t, Msg.note_off c p 0))
        (allocRank g ts r).1 (t, Msg.note_on c p v) := by
  simp only [processOn, Msg.pitch, Msg.channel, allocRank_active, h]

/-- Witness for C10: the concrete retrigger of pitch 60 on channel 2 at
time 100 appends `note_off` channel 2, pitch 60, velocity 0. -/
theorem synthetic_off_copies_channel_and_pitch_witness :
    alistLookup ([(60, 0)] : List (Nat × Nat)) 60 = some 0 ∧
      (processOn { buffers := [(0, [(0, Msg.note_on 2 60 99)])], nextIdx := 1 }
            { rankMap := [(0, 0)], active := [(60, 0)], nonNoteTarget := some 0 } 100 0
            (Msg.note_on 2 60 33)).1.buffers =
        [(0, [(0, Msg.note_on 2 60 99), (100, Msg.note_off 2 60 0),
          (100, Msg.note_on 2 60 33)])] := by
  refine ⟨rfl, ?_⟩
  exact synthetic_off_copies_channel_and_pitch
    { buffers := [(0, [(0, Msg.note_on 2 60 99)])], nextIdx := 1 }
    { rankMap := [(0, 0)], active := [(60, 0)], nonNoteTarget := some 0 } 100 0 2 60 33 0 rfl

/-! ## Rank-map stability (C3) -/

theorem allocRank_rankMap_lookup (g : GState) (ts : TrackState) (r' r i : Nat)
    (h : alistLookup ts.rankMap r = some i) :
    alistLookup (allocRank g ts r').2.2.rankMap r = some i := by
  unfold allocRank
  cases hl : alistLookup ts.rankMap r' with
  | some idx => exact h
  | none =>
      show alistLookup (alistSet ts.rankMap r' g.nextIdx) r = some i
      rw [alistLookup_alistSet]
      by_cases hr : r' = r
      · subst hr
        rw [hl] at h
        cases h
      · rw [if_neg hr]
        exact h

theorem processOn_rankMap (g : GState) (ts : TrackState) (t r : Nat) (m : Msg) :
    (processOn g ts t r m).2.rankMap = (allocRank g ts r).2.2.rankMap := rfl

theorem processOn_rankMap_lookup (g : GState) (ts : TrackState) (t r' : Nat) (m : Msg)
    (r i : Nat) (h : alistLookup ts.rankMap r = some i) :
    alistLookup (processOn g ts t r' m).2.rankMap r = some i := by
  rw [processOn_rankMap]
  exact allocRank_rankMap_lookup g ts r' r i h

theorem processOff_rankMap (g : GState) (ts : TrackState) (t : Nat) (m : Msg) :
    (processOff g ts t m).2.rankMap = ts.rankMap := by
  unfold processOff
  cases alistLookup ts.active m.pitch <;> rfl

theorem processOffs_rankMap :
    ∀ (ms : List Msg) (g : GState) (ts : TrackState) (t : Nat),
      (processOffs g ts t ms).2.rankMap = ts.rankMap := by
  intro ms
  induction ms with
  | nil => intro g ts t; rfl
  | cons m ms ih =>
      intro g ts t
      rw [processOffs, ih, processOff_rankMap]

theorem processOthers_rankMap (g : GState) (ts : TrackState) (t : Nat) (msgs : List Msg) :
    (processOthers g ts t msgs).2.rankMap = ts.rankMap := by
  unfold processOthers
  cases msgs with
  | nil => rfl
  | cons m ms => cases ts.nonNoteTarget <;> rfl

theorem processOns_rankMap_lookup :
    ∀ (ms : List Msg) (g : GState) (ts : TrackState) (t rk r i : Nat),
      alistLookup ts.rankMap r = some i →
      alistLookup (processOns g ts t rk ms).2.rankMap r = some i := by
  intro ms
  induction ms with
  | nil => intro g ts t rk r i h; exact h
  | cons m ms ih =>
      intro g ts t rk r i h
      exact ih _ _ t (rk + 1) r i (processOn_rankMap_lookup g ts t rk m r i h)

theorem processGroup_rankMap_lookup (g : GState) (ts : TrackState) (t : Nat)
    (msgs : List Msg) (r i : Nat) (h : alistLookup ts.rankMap r = some i) :
    alistLookup (processGroup g ts t msgs).2.rankMap r = some i := by
  simp only [processGroup]
  rw [processOthers_rankMap]
  apply processOns_rankMap_lookup
  rw [processOffs_rankMap]
  exact h

theorem processGroups_rankMap_lookup :
    ∀ (gs : List (Nat × List Msg)) (g : GState) (ts : TrackState) (r i : Nat),
      alistLookup ts.rankMap r = some i →
      alistLookup (processGroups g ts gs).2.rankMap r = some i := by
  intro gs
  induction gs with
  | nil => intro g ts r i h; exact h
  | cons gr gs ih =>
      intro g ts r i h
      obtain ⟨t, msgs⟩ := gr
      exact ih _ _ r i (processGroup_rankMap_lookup g ts t msgs r i h)

/-- C3: within one original track the rank-to-output-track mapping is
fixed once created — processing any further time groups preserves every
RankMap binding — and a NoteOn processed at a rank already bound to index
`i` is appended to buffer `i` (it becomes that buffer's last event). -/
theorem rank_output_mapping_is_stable :
    (∀ (gs : List (Nat × List Msg)) (g : GState) (ts : TrackState) (r i : Nat),
        alistLookup ts.rankMap r = some i →
        alistLookup (processGroups g ts gs).2.rankMap r = some i) ∧
      ∀ (g : GState) (ts : TrackState) (t r : Nat) (m : Msg) (i : Nat),
        alistLookup ts.rankMap r = some i →
        (bufGet (processOn g ts t r m).1.buffers i).getLast? = some (t, m) := by
  refine ⟨processGroups_rankMap_lookup, fun g ts t r m i h => ?_⟩
  simp only [processOn, allocRank_of_lookup g ts r i h]
  cases hl : alistLookup ts.active m.pitch <;>
    · simp only [bufGet_bufAppend, if_pos rfl]
      exact List.getLast?_concat _

/-- Witness for C3: a rank binding survives processing a further group,
and a NoteOn at an already-bound rank lands last on that rank's buffer. -/
theorem rank_output_mapping_is_stable_witness :
    alistLookup ([(0, 5)] : List (Nat × Nat)) 0 = some 5 ∧
      alistLookup
          (processGroups { buffers := [], nextIdx := 6 }
              { rankMap := [(0, 5)], active := [], nonNoteTarget := some 5 }
              [(7, [Msg.note_on 0 62 64])]).2.rankMap 0 = some 5 ∧
      (bufGet (processOn { buffers := [], nextIdx := 6 }
            { rankMap := [(0, 5)], active := [], nonNoteTarget := some 5 } 7 0
            (Msg.note_on 0 62 64)).1.buffers 5).getLast? =
        some (7, Msg.note_on 0 62 64) := by
  refine ⟨rfl, ?_, ?_⟩
  · exact rank_output_mapping_is_stable.1 [(7, [Msg.note_on 0 62 64])]
      { buffers := [], nextIdx := 6 }
      { rankMap := [(0, 5)], active := [], nonNoteTarget := some 5 } 0 5 rfl
  · exact rank_output_mapping_is_stable.2 { buffers := [], nextIdx := 6 }
      { rankMap := [(0, 5)], active := [], nonNoteTarget := some 5 } 7 0
      (Msg.note_on 0 62 64) 5 rfl

/-! ## Allocated indices always hold an event (C9) -/

theorem bufGet_bufAppend_ne_nil (b : List (Nat × List TEvent)) (j i : Nat) (e : TEvent)
    (h : bufGet b i ≠ []) : bufGet (bufAppend b j e) i ≠ [] := by
  rw [bufGet_bufAppend]
  by_cases hj : j = i
  · rw [if_pos hj]
    simp
  · rw [if_neg hj]
    exact h

theorem bufGet_bufAppend_self_ne_nil (b : List (Nat × List TEvent)) (j : Nat) (e : TEvent) :
    bufGet (bufAppend b j e) j ≠ [] := by
  rw [bufGet_bufAppend, if_pos rfl]
  simp

theorem appendEvents_nextIdx :
    ∀ (ms : List Msg) (g : GState) (idx t : Nat),
      (appendEvents g idx t ms).nextIdx = g.nextIdx := by
  intro ms
  induction ms with
  | nil => intro g idx t; rfl
  | cons m ms ih => intro g idx t; rw [appendEvents, ih]

theorem appendEvents_bufGet_ne_nil :
    ∀ (ms : List Msg) (g : GState) (idx t i : Nat),
      bufGet g.buffers i ≠ [] → bufGet (appendEvents g idx t ms).buffers i ≠ [] := by
  intro ms
  induction ms with
  | nil => intro g idx t i h; exact h
  | cons m ms ih =>
      intro g idx t i h
      exact ih _ idx t i (bufGet_bufAppend_ne_nil g.buffers idx i (t, m) h)

theorem appendEvents_self_ne_nil (ms : List Msg) (g : GState) (idx t : Nat) (m : Msg) :
    bufGet (appendEvents g idx t (m :: ms)).buffers idx ≠ [] :=
  appendEvents_bufGet_ne_nil ms _ idx t idx (bufGet_bufAppend_self_ne_nil g.buffers idx (t, m))

theorem allocRank_nextIdx_cases (g : GState) (ts : TrackState) (r : Nat) :
    ∀ i, i < (allocRank g ts r).2.1.nextIdx → i < g.nextIdx ∨ i = (allocRank g ts r).1 := by
  unfold allocRank
  cases alistLookup ts.rankMap r with
  | some idx => intro i hi; exact Or.inl hi
  | none =>
      intro i hi
      have hi' : i < g.nextIdx + 1 := hi
      show i < g.nextIdx ∨ i = g.nextIdx
      omega

theorem processOff_allocNonempty (g : GState) (ts : TrackState) (t : Nat) (m : Msg)
    (h : allocNonempty g) : allocNonempty (processOff g ts t m).1 := by
  unfold processOff
  cases hl : alistLookup ts.active m.pitch with
  | none => exact h
  | some idx =>
      intro i hi
      exact bufGet_bufAppend_ne_nil g.buffers idx i (t, m) (h i hi)

theorem processOn_allocNonempty (g : GState) (ts : TrackState) (t r : Nat) (m : Msg)
    (h : allocNonempty g) : allocNonempty (processOn g ts t r m).1 := by
  have hbuf := allocRank_buffers g ts r
  have hcases := allocRank_nextIdx_cases g ts r
  simp only [processOn]
  cases hl : alistLookup (allocRank g ts r).2.2.active m.pitch with
  | some prev =>
      intro i hi
      rcases hcases i hi with hlt | heq
      · apply bufGet_bufAppend_ne_nil
        apply bufGet_bufAppend_ne_nil
        rw [hbuf]
        exact h i hlt
      · rw [heq]
        exact bufGet_bufAppend_self_ne_nil _ _ _
  | none =>
      intro i hi
      rcases hcases i hi with hlt | heq
      · apply bufGet_bufAppend_ne_nil
        rw [hbuf]
        exact h i hlt
      · rw [heq]
        exact bufGet_bufAppend_self_ne_nil _ _ _

theorem processOthers_allocNonempty (g : GState) (ts : TrackState) (t : Nat)
    (msgs : List Msg) (h : allocNonempty g) : allocNonempty (processOthers g ts t msgs).1 := by
  unfold processOthers
  cases msgs with
  | nil => exact h
  | cons m ms =>
      cases hn : ts.nonNoteTarget with
      | some idx =>
          intro i hi
          rw [appendEvents_nextIdx] at hi
          exact appendEvents_bufGet_ne_nil (m :: ms) g idx t i (h i hi)
      | none =>
          intro i hi
          rw [appendEvents_nextIdx] at hi
          by_cases hI : i = g.nextIdx
          · rw [hI]
            exact appendEvents_self_ne_nil ms _ g.nextIdx t m
          · have hlt : i < g.nextIdx := by
              simp only at hi
              omega
            exact appendEvents_bufGet_ne_nil (m :: ms) _ g.nextIdx t i (h i hlt)

theorem processOffs_allocNonempty :
    ∀ (ms : List Msg) (g : GState) (ts : TrackState) (t : Nat),
      allocNonempty g → allocNonempty (processOffs g ts t ms).1 := by
  intro ms
  induction ms with
  | nil => intro g ts t h; exact h
  | cons m ms ih =>
      intro g ts t h
      exact ih _ _ t (processOff_allocNonempty g ts t m h)

theorem processOns_allocNonempty :
    ∀ (ms : List Msg) (g : GState) (ts : TrackState) (t rk : Nat),
      allocNonempty g → allocNonempty (processOns g ts t rk ms).1 := by
  intro ms
  induction ms with
  | nil => intro g ts t rk h; exact h
  | cons m ms ih =>
      intro g ts t rk h
      exact ih _ _ t (rk + 1) (processOn_allocNonempty g ts t rk m h)

theorem processGroup_allocNonempty (g : GState) (ts : TrackState) (t : Nat)
    (msgs : List Msg) (h : allocNonempty g) : allocNonempty (processGroup g ts t msgs).1 := by
  simp only [processGroup]
  apply processOthers_allocNonempty
  apply processOns_allocNonempty
  apply processOffs_allocNonempty
  exact h

theorem processGroups_allocNonempty :
    ∀ (gs : List (Nat × List Msg)) (g : GState) (ts : TrackState),
      allocNonempty g → allocNonempty (processGroups g ts gs).1 := by
  intro gs
  induction gs with
  | nil => intro g ts h; exact h
  | cons gr gs ih =>
      intro g ts h
      obtain ⟨t, msgs⟩ := gr
      exact ih _ _ (processGroup_allocNonempty g ts t msgs h)

theorem processTrack_allocNonempty (g : GState) (tr : List (Nat × Msg))
    (h : allocNonempty g) : allocNonempty (processTrack g tr).1 :=
  processGroups_allocNonempty _ g initTS h

theorem processTracksStates_allocNonempty :
    ∀ (tracks : List (List (Nat × Msg))) (g : GState),
      allocNonempty g → allocNonempty (processTracksStates g tracks).1 := by
  intro tracks
  induction tracks with
  | nil => intro g h; exact h
  | cons tr trs ih =>
      intro g h
      exact ih _ (processTrack_allocNonempty g tr h)

theorem processTracks_allocNonempty (tracks : List (List (Nat × Msg))) :
    allocNonempty (processTracks tracks) :=
  processTracksStates_allocNonempty tracks initG (fun i hi => absurd hi (Nat.not_lt_zero i))

/-- C9 counterexample: an original track whose only message is the
end-of-track meta marker (real decoded tracks do contain this marker, and
the router classifies it as an "other" message) produces an emitted output
track consisting of the terminator marker alone — even though the
allocated index does hold a buffered event, so the empty-track branch is
not what produced it. This refutes the claim's final clause that no
emitted track consists of the terminator marker alone. -/
theorem terminator_only_output_track :
    transform [[(0, Msg.end_of_track)]] = [[(0, Msg.end_of_track)]] ∧
      bufGet (processTracks [[(0, Msg.end_of_track)]]).buffers 0 = [(0, Msg.end_of_track)] :=
  ⟨rfl, rfl⟩

/-- C9 amended: every output-track index ever allocated by the global
counter holds at least one buffered event by the time materialization
starts (each allocation is immediately followed by an append to that
index), so the materializer's empty-track branch is unreachable; an
emitted track can still be the terminator marker alone, but only when the
buffered event itself is a routed terminator marker. -/
theorem allocated_index_has_buffered_event (tracks : List (List (Nat × Msg))) (i : Nat)
    (h : i < (processTracks tracks).nextIdx) :
    bufGet (processTracks tracks).buffers i ≠ [] :=
  processTracks_allocNonempty tracks i h

/-- Witness for the amended C9 at a concrete single-note input. -/
theorem allocated_index_has_buffered_event_witness :
    0 < (processTracks [[(0, Msg.note_on 0 60 64)]]).nextIdx ∧
      bufGet (processTracks [[(0, Msg.note_on 0 60 64)]]).buffers 0 ≠ [] :=
  ⟨by decide, allocated_index_has_buffered_event [[(0, Msg.note_on 0 60 64)]] 0 (by decide)⟩

/-! ## Counting note-ons and note-offs (C8) -/

theorem isOn_not_isOff (m : Msg) (h : m.isOnMsg = true) : m.isOffMsg = false := by
  cases m with
  | note_on c n v =>
      simp [Msg.isOnMsg] at h
      simp [Msg.isOffMsg]
      omega
  | note_off c n v => simp [Msg.isOnMsg] at h
  | other p => simp [Msg.isOnMsg] at h
  | end_of_track => simp [Msg.isOnMsg] at h

theorem isOff_not_isOn (m : Msg) (h : m.isOffMsg = true) : m.isOnMsg = false := by
  cases m with
  | note_on c n v =>
      simp [Msg.isOffMsg] at h
      simp [Msg.isOnMsg]
      omega
  | note_off c n v => simp [Msg.isOnMsg]
  | other p => simp [Msg.isOnMsg]
  | end_of_track => simp [Msg.isOnMsg]

theorem countOn_concat (l : List TEvent) (t : Nat) (m : Msg) :
    countOn (l ++ [(t, m)]) = countOn l + if m.isOnMsg then 1 else 0 := by
  by_cases h : m.isOnMsg <;> simp [countOn, List.filter_append, List.filter_cons, h]

theorem countOff_concat (l : List TEvent) (t : Nat) (m : Msg) :
    countOff (l ++ [(t, m)]) = countOff l + if m.isOffMsg then 1 else 0 := by
  by_cases h : m.isOffMsg <;> simp [countOff, List.filter_append, List.filter_cons, h]

theorem countOn_bufGet_bufAppend (b : List (Nat × List TEvent)) (j i t : Nat) (m : Msg) :
    countOn (bufGet (bufAppend b j (t, m)) i) =
      countOn (bufGet b i) + if j = i ∧ m.isOnMsg = true then 1 else 0 := by
  rw [bufGet_bufAppend]
  by_cases hj : j = i
  · rw [if_pos hj, countOn_concat]
    by_cases hm : m.isOnMsg <;> simp [hj, hm]
  · rw [if_neg hj]
    simp [hj]

theorem countOff_bufGet_bufAppend (b : List (Nat × List TEvent)) (j i t : Nat) (m : Msg) :
    countOff (bufGet (bufAppend b j (t, m)) i) =
      countOff (bufGet b i) + if j = i ∧ m.isOffMsg = true then 1 else 0 := by
  rw [bufGet_bufAppend]
  by_cases hj : j = i
  · rw [if_pos hj, countOff_concat]
    by_cases hm : m.isOffMsg <;> simp [hj, hm]
  · rw [if_neg hj]
    simp [hj]

theorem activeCount_nil (i : Nat) : activeCount [] i = 0 := rfl

theorem activeCount_cons (p : Nat × Nat) (a : List (Nat × Nat)) (i : Nat) :
    activeCount (p :: a) i = (if p.2 = i then 1 else 0) + activeCount a i := by
  by_cases h : p.2 = i
  · simp [activeCount, List.filter_cons, h]
    omega
  · simp [activeCount, List.filter_cons, h]

theorem activeCount_alistErase (a : List (Nat × Nat)) (k v i : Nat)
    (h : alistLookup a k = some v) :
    activeCount a i = activeCount (alistErase a k) i + if v = i then 1 else 0 := by
  induction a with
  | nil => cases h
  | cons e rest ih =>
      obtain ⟨ek, ev⟩ := e
      by_cases hek : ek = k
      · have hv : ev = v := by
          simp [alistLookup, hek] at h
          exact h
        subst hv
        rw [show alistErase ((ek, ev) :: rest) k = rest by simp [alistErase, hek]]
        rw [activeCount_cons]
        dsimp only
        omega
      · have h' : alistLookup rest k = some v := by
          simpa [alistLookup, hek] using h
        rw [show alistErase ((ek, ev) :: rest) k = (ek, ev) :: alistErase rest k by
          simp [alistErase, hek]]
        rw [activeCount_cons, activeCount_cons, ih h']
        omega

theorem activeCount_alistSet_none (a : List (Nat × Nat)) (k v i : Nat)
    (h : alistLookup a k = none) :
    activeCount (alistSet a k v) i = activeCount a i + if v = i then 1 else 0 := by
  induction a with
  | nil =>
      rw [show alistSet ([] : List (Nat × Nat)) k v = [(k, v)] from rfl]
      rw [activeCount_cons]
      dsimp only
      omega
  | cons e rest ih =>
      obtain ⟨ek, ev⟩ := e
      by_cases hek : ek = k
      · simp [alistLookup, hek] at h
      · have h' : alistLookup rest k = none := by
          simpa [alistLookup, hek] using h
        rw [show alistSet ((ek, ev) :: rest) k v = (ek, ev) :: alistSet rest k v by
          simp [alistSet, hek]]
        rw [activeCount_cons, activeCount_cons, ih h']
        omega

theorem activeCount_alistSet_some (a : List (Nat × Nat)) (k v prev i : Nat)
    (h : alistLookup a k = some prev) :
    activeCount (alistSet a k v) i + (if prev = i then 1 else 0) =
      activeCount a i + if v = i then 1 else 0 := by
  induction a with
  | nil => cases h
  | cons e rest ih =>
      obtain ⟨ek, ev⟩ := e
      by_cases hek : ek = k
      · have hv : ev = prev := by
          simp [alistLookup, hek] at h
          exact h
        subst hv
        rw [show alistSet ((ek, ev) :: rest) k v = (k, v) :: rest by simp [alistSet, hek]]
        rw [activeCount_cons, activeCount_cons]
        dsimp only
        omega
      · have h' : alistLookup rest k = some prev := by
          simpa [alistLookup, hek] using h
        rw [show alistSet ((ek, ev) :: rest) k v = (ek, ev) :: alistSet rest k v by
          simp [alistSet, hek]]
        rw [activeCount_cons, activeCount_cons]
        have := ih h'
        omega

/-! ## The on/off balance invariant (C8) -/

theorem processOff_bal (g : GState) (ts : TrackState) (t : Nat) (m : Msg)
    (extra : Nat → Nat) (hm : m.isOffMsg = true) (h : balancedW g ts.active extra) :
    balancedW (processOff g ts t m).1 (processOff g ts t m).2.active extra := by
  unfold processOff
  cases hl : alistLookup ts.active m.pitch with
  | none => exact h
  | some idx =>
      intro i
      have hi := h i
      have hOn : m.isOnMsg = false := isOff_not_isOn m hm
      have hc := activeCount_alistErase ts.active m.pitch idx i hl
      show countOn (bufGet (bufAppend g.buffers idx (t, m)) i) =
        countOff (bufGet (bufAppend g.buffers idx (t, m)) i) +
          activeCount (alistErase ts.active m.pitch) i + extra i
      rw [countOn_bufGet_bufAppend, countOff_bufGet_bufAppend]
      by_cases hidx : idx = i
      · rw [if_pos hidx] at hc
        simp [hidx, hm, hOn]
        omega
      · rw [if_neg hidx] at hc
        simp [hidx]
        omega

theorem processOn_bal (g : GState) (ts : TrackState) (t r : Nat) (m : Msg)
    (extra : Nat → Nat) (hm : m.isOnMsg = true) (h : balancedW g ts.active extra) :
    balancedW (processOn g ts t r m).1 (processOn g ts t r m).2.active extra := by
  have hAct := allocRank_active g ts r
  have hBuf := allocRank_buffers g ts r
  have hOff : m.isOffMsg = false := isOn_not_isOff m hm
  simp only [processOn, hAct]
  cases hl : alistLookup ts.active m.pitch with
  | some prev =>
      intro i
      have hi := h i
      have hset := activeCount_alistSet_some ts.active m.pitch (allocRank g ts r).1 prev i hl
      have hOffS : (Msg.note_off m.channel m.pitch 0).isOffMsg = true := rfl
      have hOnS : (Msg.note_off m.channel m.pitch 0).isOnMsg = false := rfl
      show countOn (bufGet (bufAppend (bufAppend (allocRank g ts r).2.1.buffers prev
            (t, Msg.note_off m.channel m.pitch 0)) (allocRank g ts r).1 (t, m)) i) =
        countOff (bufGet (bufAppend (bufAppend (allocRank g ts r).2.1.buffers prev
            (t, Msg.note_off m.channel m.pitch 0)) (allocRank g ts r).1 (t, m)) i) +
          activeCount (alistSet ts.active m.pitch (allocRank g ts r).1) i + extra i
      rw [hBuf]
      rw [countOn_bufGet_bufAppend, countOn_bufGet_bufAppend,
        countOff_bufGet_bufAppend, countOff_bufGet_bufAppend]
      by_cases hT : (allocRank g ts r).1 = i <;> by_cases hP : prev = i
      · simp [hT, hP] at hset
        simp [hT, hP, hm, hOff, hOnS, hOffS]
        omega
      · simp [hT, hP] at hset
        simp [hT, hP, hm, hOff, hOnS, hOffS]
        omega
      · simp [hT, hP] at hset
        simp [hT, hP, hm, hOff, hOnS, hOffS]
        omega
      · simp [hT, hP] at hset
        simp [hT, hP]
        omega
  | none =>
      intro i
      have hi := h i
      have hset := activeCount_alistSet_none ts.active m.pitch (allocRank g ts r).1 i hl
      show countOn (bufGet (bufAppend (allocRank g ts r).2.1.buffers
            (allocRank g ts r).1 (t, m)) i) =
        countOff (bufGet (bufAppend (allocRank g ts r).2.1.buffers
            (allocRank g ts r).1 (t, m)) i) +
          activeCount (alistSet ts.active m.pitch (allocRank g ts r).1) i + extra i
      rw [hBuf]
      rw [countOn_bufGet_bufAppend, countOff_bufGet_bufAppend]
      by_cases hT : (allocRank g ts r).1 = i
      · simp [hT] at hset
        simp [hT, hm, hOff]
        omega
      · simp [hT] at hset
        simp [hT]
        omega

theorem appendEvents_counts :
    ∀ (ms : List Msg) (g : GState) (idx t i : Nat),
      (∀ m ∈ ms, m.isOnMsg = false ∧ m.isOffMsg = false) →
      countOn (bufGet (appendEvents g idx t ms).buffers i) = countOn (bufGet g.buffers i) ∧
        countOff (bufGet (appendEvents g idx t ms).buffers i) =
          countOff (bufGet g.buffers i) := by
  intro ms
  induction ms with
  | nil => intro g idx t i hms; exact ⟨rfl, rfl⟩
  | cons m ms ih =>
      intro g idx t i hms
      have hm := hms m (List.mem_cons_self m ms)
      have hrec := ih { g with buffers := bufAppend g.buffers idx (t, m) } idx t i
        fun x hx => hms x (List.mem_cons_of_mem m hx)
      rw [appendEvents]
      constructor
      · rw [hrec.1]
        show countOn (bufGet (bufAppend g.buffers idx (t, m)) i) = countOn (bufGet g.buffers i)
        rw [countOn_bufGet_bufAppend]
        simp [hm.1]
      · rw [hrec.2]
        show countOff (bufGet (bufAppend g.buffers idx (t, m)) i) =
          countOff (bufGet g.buffers i)
        rw [countOff_bufGet_bufAppend]
        simp [hm.2]

theorem processOthers_bal (g : GState) (ts : TrackState) (t : Nat) (msgs : List Msg)
    (extra : Nat → Nat) (hms : ∀ m ∈ msgs, m.isOnMsg = false ∧ m.isOffMsg = false)
    (h : balancedW g ts.active extra) :
    balancedW (processOthers g ts t msgs).1 (processOthers g ts t msgs).2.active extra := by
  unfold processOthers
  cases msgs with
  | nil => exact h
  | cons m ms =>
      cases hn : ts.nonNoteTarget with
      | some idx =>
          intro i
          have hc := appendEvents_counts (m :: ms) g idx t i hms
          show countOn (bufGet (appendEvents g idx t (m :: ms)).buffers i) =
            countOff (bufGet (appendEvents g idx t (m :: ms)).buffers i) +
              activeCount ts.active i + extra i
          rw [hc.1, hc.2]
          exact h i
      | none =>
          intro i
          have hc := appendEvents_counts (m :: ms) { g with nextIdx := g.nextIdx + 1 }
            g.nextIdx t i hms
          show countOn
              (bufGet (appendEvents { g with nextIdx := g.nextIdx + 1 }
                g.nextIdx t (m :: ms)).buffers i) =
            countOff
                (bufGet (appendEvents { g with nextIdx := g.nextIdx + 1 }
                  g.nextIdx t (m :: ms)).buffers i) +
              activeCount ts.active i + extra i
          rw [hc.1, hc.2]
          exact h i

theorem processOffs_bal :
    ∀ (ms : List Msg) (g : GState) (ts : TrackState) (t : Nat) (extra : Nat → Nat),
      (∀ m ∈ ms, m.isOffMsg = true) → balancedW g ts.active extra →
      balancedW (processOffs g ts t ms).1 (processOffs g ts t ms).2.active extra := by
  intro ms
  induction ms with
  | nil => intro g ts t extra hms h; exact h
  | cons m ms ih =>
      intro g ts t extra hms h
      exact ih _ _ t extra (fun x hx => hms x (List.mem_cons_of_mem m hx))
        (processOff_bal g ts t m extra (hms m (List.mem_cons_self m ms)) h)

theorem processOns_bal :
    ∀ (ms : List Msg) (g : GState) (ts : TrackState) (t rk : Nat) (extra : Nat → Nat),
      (∀ m ∈ ms, m.isOnMsg = true) → balancedW g ts.active extra →
      balancedW (processOns g ts t rk ms).1 (processOns g ts t rk ms).2.active extra := by
  intro ms
  induction ms with
  | nil => intro g ts t rk extra hms h; exact h
  | cons m ms ih =>
      intro g ts t rk extra hms h
      exact ih _ _ t (rk + 1) extra (fun x hx => hms x (List.mem_cons_of_mem m hx))
        (processOn_bal g ts t rk m extra (hms m (List.mem_cons_self m ms)) h)

theorem processGroup_bal (g : GState) (ts : TrackState) (t : Nat) (msgs : List Msg)
    (extra : Nat → Nat) (h : balancedW g ts.active extra) :
    balancedW (processGroup g ts t msgs).1 (processGroup g ts t msgs).2.active extra := by
  simp only [processGroup]
  apply processOthers_bal
  · intro m hm
    have hmem := (List.mem_filter.mp hm).2
    simp only [Bool.and_eq_true, Bool.not_eq_true'] at hmem
    exact hmem
  · apply processOns_bal
    · intro m hm
      have hmem : m ∈ msgs.filter Msg.isOnMsg :=
        (List.Perm.mem_iff (List.perm_insertionSort _ _)).mp hm
      exact (List.mem_filter.mp hmem).2
    · apply processOffs_bal
      · intro m hm
        exact (List.mem_filter.mp hm).2
      · exact h

theorem processGroups_bal :
    ∀ (gs : List (Nat × List Msg)) (g : GState) (ts : TrackState) (extra : Nat → Nat),
      balancedW g ts.active extra →
      balancedW (processGroups g ts gs).1 (processGroups g ts gs).2.active extra := by
  intro gs
  induction gs with
  | nil => intro g ts extra h; exact h
  | cons gr gs ih =>
      intro g ts extra h
      obtain ⟨t, msgs⟩ := gr
      exact ih _ _ extra (processGroup_bal g ts t msgs extra h)

theorem leftover_nil (i : Nat) : leftover [] i = 0 := rfl

theorem leftover_cons (ts : TrackState) (sts : List TrackState) (i : Nat) :
    leftover (ts :: sts) i = activeCount ts.active i + leftover sts i := by
  simp [leftover]

theorem processTrack_bal (g : GState) (tr : List (Nat × Msg)) (extra : Nat → Nat)
    (h : ∀ i, countOn (bufGet g.buffers i) = countOff (bufGet g.buffers i) + extra i) :
    balancedW (processTrack g tr).1 (processTrack g tr).2.active extra := by
  apply processGroups_bal
  intro i
  have := h i
  show countOn (bufGet g.buffers i) =
    countOff (bufGet g.buffers i) + activeCount initTS.active i + extra i
  rw [show initTS.active = [] from rfl, activeCount_nil]
  omega

theorem processTracksStates_bal :
    ∀ (tracks : List (List (Nat × Msg))) (g : GState) (extra : Nat → Nat),
      (∀ i, countOn (bufGet g.buffers i) = countOff (bufGet g.buffers i) + extra i) →
      ∀ i, countOn (bufGet (processTracksStates g tracks).1.buffers i) =
        countOff (bufGet (processTracksStates g tracks).1.buffers i) +
          leftover (processTracksStates g tracks).2 i + extra i := by
  intro tracks
  induction tracks with
  | nil =>
      intro g extra h i
      have := h i
      show countOn (bufGet g.buffers i) =
        countOff (bufGet g.buffers i) + leftover [] i + extra i
      rw [leftover_nil]
      omega
  | cons tr trs ih =>
      intro g extra h i
      have hb := processTrack_bal g tr extra h
      have hih := ih (processTrack g tr).1
        (fun j => activeCount (processTrack g tr).2.active j + extra j)
        (fun j => by
          have := hb j
          show countOn (bufGet (processTrack g tr).1.buffers j) =
            countOff (bufGet (processTrack g tr).1.buffers j) +
              (activeCount (processTrack g tr).2.active j + extra j)
          omega) i
      show countOn (bufGet (processTracksStates (processTrack g tr).1 trs).1.buffers i) =
        countOff (bufGet (processTracksStates (processTrack g tr).1 trs).1.buffers i) +
          leftover ((processTrack g tr).2 :: (processTracksStates (processTrack g tr).1 trs).2)
            i + extra i
      rw [leftover_cons]
      omega

/-! ## Distinct active pitches and their note-on witnesses (C8) -/

theorem mem_keys_alistSet :
    ∀ (l : List (Nat × Nat)) (k v j : Nat),
      j ∈ (alistSet l k v).map Prod.fst → j = k ∨ j ∈ l.map Prod.fst := by
  intro l
  induction l with
  | nil =>
      intro k v j h
      simp [alistSet] at h
      exact Or.inl h
  | cons e rest ih =>
      intro k v j h
      obtain ⟨ek, ev⟩ := e
      by_cases hek : ek = k
      · rw [show alistSet ((ek, ev) :: rest) k v = (k, v) :: rest by simp [alistSet, hek]] at h
        simp only [List.map_cons, List.mem_cons] at h
        rcases h with h | h
        · exact Or.inl h
        · exact Or.inr (by simp only [List.map_cons, List.mem_cons]; exact Or.inr h)
      · rw [show alistSet ((ek, ev) :: rest) k v = (ek, ev) :: alistSet rest k v by
          simp [alistSet, hek]] at h
        simp only [List.map_cons, List.mem_cons] at h
        rcases h with h | h
        · exact Or.inr (by simp only [List.map_cons, List.mem_cons]; exact Or.inl h)
        · rcases ih k v j h with h2 | h2
          · exact Or.inl h2
          · exact Or.inr (by simp only [List.map_cons, List.mem_cons]; exact Or.inr h2)

theorem keysNodup_alistSet :
    ∀ (l : List (Nat × Nat)) (k v : Nat),
      (l.map Prod.fst).Nodup → ((alistSet l k v).map Prod.fst).Nodup := by
  intro l
  induction l with
  | nil => intro k v h; simp [alistSet]
  | cons e rest ih =>
      intro k v h
      obtain ⟨ek, ev⟩ := e
      simp only [List.map_cons, List.nodup_cons] at h
      by_cases hek : ek = k
      · subst hek
        rw [show alistSet ((ek, ev) :: rest) ek v = (ek, v) :: rest by simp [alistSet]]
        simp only [List.map_cons, List.nodup_cons]
        exact h
      · rw [show alistSet ((ek, ev) :: rest) k v = (ek, ev) :: alistSet rest k v by
          simp [alistSet, hek]]
        simp only [List.map_cons, List.nodup_cons]
        exact ⟨fun hmem => (mem_keys_alistSet rest k v ek hmem).elim
          (fun h2 => hek h2) (fun h2 => h.1 h2), ih k v h.2⟩

theorem mem_keys_alistErase :
    ∀ (l : List (Nat × Nat)) (k j : Nat),
      j ∈ (alistErase l k).map Prod.fst → j ∈ l.map Prod.fst := by
  intro l
  induction l with
  | nil => intro k j h; simpa [alistErase] using h
  | cons e rest ih =>
      intro k j h
      obtain ⟨ek, ev⟩ := e
      by_cases hek : ek = k
      · rw [show alistErase ((ek, ev) :: rest) k = rest by simp [alistErase, hek]] at h
        simp only [List.map_cons, List.mem_cons]
        exact Or.inr h
      · rw [show alistErase ((ek, ev) :: rest) k = (ek, ev) :: alistErase rest k by
          simp [alistErase, hek]] at h
        simp only [List.map_cons, List.mem_cons] at h ⊢
        rcases h with h | h
        · exact Or.inl h
        · exact Or.inr (ih k j h)

theorem keysNodup_alistErase :
    ∀ (l : List (Nat × Nat)) (k : Nat),
      (l.map Prod.fst).Nodup → ((alistErase l k).map Prod.fst).Nodup := by
  intro l
  induction l with
  | nil => intro k h; simpa [alistErase] using h
  | cons e rest ih =>
      intro k h
      obtain ⟨ek, ev⟩ := e
      simp only [List.map_cons, List.nodup_cons] at h
      by_cases hek : ek = k
      · rw [show alistErase ((ek, ev) :: rest) k = rest by simp [alistErase, hek]]
        exact h.2
      · rw [show alistErase ((ek, ev) :: rest) k = (ek, ev) :: alistErase rest k by
          simp [alistErase, hek]]
        simp only [List.map_cons, List.nodup_cons]
        exact ⟨fun hmem => h.1 (mem_keys_alistErase rest k ek hmem), ih k h.2⟩

theorem mem_alistErase {α : Type} :
    ∀ (l : List (Nat × α)) (k : Nat) (q : Nat × α), q ∈ alistErase l k → q ∈ l := by
  intro l
  induction l with
  | nil => intro k q h; simpa [alistErase] using h
  | cons e rest ih =>
      intro k q h
      obtain ⟨ek, ev⟩ := e
      by_cases hek : ek = k
      · rw [show alistErase ((ek, ev) :: rest) k = rest by simp [alistErase, hek]] at h
        exact List.mem_cons_of_mem _ h
      · rw [show alistErase ((ek, ev) :: rest) k = (ek, ev) :: alistErase rest k by
          simp [alistErase, hek]] at h
        rcases List.mem_cons.mp h with h | h
        · exact h ▸ List.mem_cons_self _ _
        · exact List.mem_cons_of_mem _ (ih k q h)

theorem mem_alistSet {α : Type} :
    ∀ (l : List (Nat × α)) (k : Nat) (v : α) (q : Nat × α),
      q ∈ alistSet l k v → q = (k, v) ∨ q ∈ l := by
  intro l
  induction l with
  | nil =>
      intro k v q h
      simp [alistSet] at h
      exact Or.inl h
  | cons e rest ih =>
      intro k v q h
      obtain ⟨ek, ev⟩ := e
      by_cases hek : ek = k
      · rw [show alistSet ((ek, ev) :: rest) k v = (k, v) :: rest by simp [alistSet, hek]] at h
        rcases List.mem_cons.mp h with h | h
        · exact Or.inl h
        · exact Or.inr (List.mem_cons_of_mem _ h)
      · rw [show alistSet ((ek, ev) :: rest) k v = (ek, ev) :: alistSet rest k v by
          simp [alistSet, hek]] at h
        rcases List.mem_cons.mp h with h | h
        · exact Or.inr (h ▸ List.mem_cons_self _ _)
        · rcases ih k v q h with h2 | h2
          · exact Or.inl h2
          · exact Or.inr (List.mem_cons_of_mem _ h2)

theorem mem_bufGet_bufAppend (b : List (Nat × List TEvent)) (j i : Nat) (e x : TEvent)
    (h : x ∈ bufGet b i) : x ∈ bufGet (bufAppend b j e) i := by
  rw [bufGet_bufAppend]
  by_cases hj : j = i
  · rw [if_pos hj]
    exact List.mem_append_left _ h
  · rw [if_neg hj]
    exact h

theorem mem_bufGet_appendEvents :
    ∀ (ms : List Msg) (g : GState) (idx t i : Nat) (x : TEvent),
      x ∈ bufGet g.buffers i → x ∈ bufGet (appendEvents g idx t ms).buffers i := by
  intro ms
  induction ms with
  | nil => intro g idx t i x h; exact h
  | cons m ms ih =>
      intro g idx t i x h
      exact ih _ idx t i x (mem_bufGet_bufAppend g.buffers idx i (t, m) x h)

theorem processOff_keys (g : GState) (ts : TrackState) (t : Nat) (m : Msg)
    (h : keysNodup ts.active) : keysNodup (processOff g ts t m).2.active := by
  unfold processOff
  cases alistLookup ts.active m.pitch with
  | none => exact h
  | some idx => exact keysNodup_alistErase ts.active m.pitch h

theorem processOn_keys (g : GState) (ts : TrackState) (t r : Nat) (m : Msg)
    (h : keysNodup ts.active) : keysNodup (processOn g ts t r m).2.active := by
  have hAct := allocRank_active g ts r
  simp only [processOn, hAct]
  cases alistLookup ts.active m.pitch with
  | some prev => exact keysNodup_alistSet ts.active m.pitch (allocRank g ts r).1 h
  | none => exact keysNodup_alistSet ts.active m.pitch (allocRank g ts r).1 h

theorem processOthers_keys (g : GState) (ts : TrackState) (t : Nat) (msgs : List Msg)
    (h : keysNodup ts.active) : keysNodup (processOthers g ts t msgs).2.active := by
  unfold processOthers
  cases msgs with
  | nil => exact h
  | cons m ms => cases ts.nonNoteTarget <;> exact h

theorem processOffs_keys :
    ∀ (ms : List Msg) (g : GState) (ts : TrackState) (t : Nat),
      keysNodup ts.active → keysNodup (processOffs g ts t ms).2.active := by
  intro ms
  induction ms with
  | nil => intro g ts t h; exact h
  | cons m ms ih =>
      intro g ts t h
      exact ih _ _ t (processOff_keys g ts t m h)

theorem processOns_keys :
    ∀ (ms : List Msg) (g : GState) (ts : TrackState) (t rk : Nat),
      keysNodup ts.active → keysNodup (processOns g ts t rk ms).2.active := by
  intro ms
  induction ms with
  | nil => intro g ts t rk h; exact h
  | cons m ms ih =>
      intro g ts t rk h
      exact ih _ _ t (rk + 1) (processOn_keys g ts t rk m h)

theorem processGroup_keys (g : GState) (ts : TrackState) (t : Nat) (msgs : List Msg)
    (h : keysNodup ts.active) : keysNodup (processGroup g ts t msgs).2.active := by
  simp only [processGroup]
  apply processOthers_keys
  apply processOns_keys
  apply processOffs_keys
  exact h

theorem processGroups_keys :
    ∀ (gs : List (Nat × List Msg)) (g : GState) (ts : TrackState),
      keysNodup ts.active → keysNodup (processGroups g ts gs).2.active := by
  intro gs
  induction gs with
  | nil => intro g ts h; exact h
  | cons gr gs ih =>
      intro g ts h
      obtain ⟨t, msgs⟩ := gr
      exact ih _ _ (processGroup_keys g ts t msgs h)

theorem processTrack_keys (g : GState) (tr : List (Nat × Msg)) :
    keysNodup (processTrack g tr).2.active :=
  processGroups_keys _ g initTS List.nodup_nil

/-! ## Buffer growth and witnessed note-ons (C8) -/

theorem witnessedOn_mono (g g' : GState) (a : List (Nat × Nat)) (hle : bufLe g g')
    (h : witnessedOn g a) : witnessedOn g' a := by
  intro q hq
  obtain ⟨e, he, h1, h2⟩ := h q hq
  exact ⟨e, hle q.2 e he, h1, h2⟩

theorem bufLe_refl (g : GState) : bufLe g g := fun _ _ h => h

theorem bufLe_trans (g1 g2 g3 : GState) (h1 : bufLe g1 g2) (h2 : bufLe g2 g3) :
    bufLe g1 g3 := fun i e h => h2 i e (h1 i e h)

theorem bufLe_processOff (g : GState) (ts : TrackState) (t : Nat) (m : Msg) :
    bufLe g (processOff g ts t m).1 := by
  unfold processOff
  cases alistLookup ts.active m.pitch with
  | none => exact bufLe_refl g
  | some idx =>
      intro i e he
      exact mem_bufGet_bufAppend g.buffers idx i (t, m) e he

theorem bufLe_processOn (g : GState) (ts : TrackState) (t r : Nat) (m : Msg) :
    bufLe g (processOn g ts t r m).1 := by
  have hBuf := allocRank_buffers g ts r
  simp only [processOn]
  cases alistLookup (allocRank g ts r).2.2.active m.pitch with
  | some prev =>
      intro i e he
      show e ∈ bufGet (bufAppend (bufAppend (allocRank g ts r).2.1.buffers prev
        (t, Msg.note_off m.channel m.pitch 0)) (allocRank g ts r).1 (t, m)) i
      rw [hBuf]
      exact mem_bufGet_bufAppend _ _ _ _ _ (mem_bufGet_bufAppend _ _ _ _ _ he)
  | none =>
      intro i e he
      show e ∈ bufGet (bufAppend (allocRank g ts r).2.1.buffers (allocRank g ts r).1 (t, m)) i
      rw [hBuf]
      exact mem_bufGet_bufAppend _ _ _ _ _ he

theorem bufLe_appendEvents (ms : List Msg) (g : GState) (idx t : Nat) :
    bufLe g (appendEvents g idx t ms) :=
  fun i e he => mem_bufGet_appendEvents ms g idx t i e he

theorem bufLe_processOthers (g : GState) (ts : TrackState) (t : Nat) (msgs : List Msg) :
    bufLe g (processOthers g ts t msgs).1 := by
  unfold processOthers
  cases msgs with
  | nil => exact bufLe_refl g
  | cons m ms =>
      cases ts.nonNoteTarget with
      | some idx => exact bufLe_appendEvents (m :: ms) g idx t
      | none => exact bufLe_appendEvents (m :: ms) { g with nextIdx := g.nextIdx + 1 } g.nextIdx t

theorem bufLe_processOffs :
    ∀ (ms : List Msg) (g : GState) (ts : TrackState) (t : Nat),
      bufLe g (processOffs g ts t ms).1 := by
  intro ms
  induction ms with
  | nil => intro g ts t; exact bufLe_refl g
  | cons m ms ih =>
      intro g ts t
      exact bufLe_trans _ _ _ (bufLe_processOff g ts t m) (ih _ _ t)

theorem bufLe_processOns :
    ∀ (ms : List Msg) (g : GState) (ts : TrackState) (t rk : Nat),
      bufLe g (processOns g ts t rk ms).1 := by
  intro ms
  induction ms with
  | nil => intro g ts t rk; exact bufLe_refl g
  | cons m ms ih =>
      intro g ts t rk
      exact bufLe_trans _ _ _ (bufLe_processOn g ts t rk m) (ih _ _ t (rk + 1))

theorem bufLe_processGroup (g : GState) (ts : TrackState) (t : Nat) (msgs : List Msg) :
    bufLe g (processGroup g ts t msgs).1 := by
  simp only [processGroup]
  exact bufLe_trans _ _ _ (bufLe_processOffs (msgs.filter Msg.isOffMsg) g ts t)
    (bufLe_trans _ _ _
      (bufLe_processOns (sortOnsDesc (msgs.filter Msg.isOnMsg))
        (processOffs g ts t (msgs.filter Msg.isOffMsg)).1
        (processOffs g ts t (msgs.filter Msg.isOffMsg)).2 t 0)
      (bufLe_processOthers _ _ t (msgs.filter fun m => !m.isOnMsg && !m.isOffMsg)))

theorem bufLe_processGroups :
    ∀ (gs : List (Nat × List Msg)) (g : GState) (ts : TrackState),
      bufLe g (processGroups g ts gs).1 := by
  intro gs
  induction gs with
  | nil => intro g ts; exact bufLe_refl g
  | cons gr gs ih =>
      intro g ts
      obtain ⟨t, msgs⟩ := gr
      exact bufLe_trans _ _ _ (bufLe_processGroup g ts t msgs) (ih _ _)

theorem bufLe_processTrack (g : GState) (tr : List (Nat × Msg)) :
    bufLe g (processTrack g tr).1 :=
  bufLe_processGroups _ g initTS

theorem bufLe_processTracksStates :
    ∀ (tracks : List (List (Nat × Msg))) (g : GState),
      bufLe g (processTracksStates g tracks).1 := by
  intro tracks
  induction tracks with
  | nil => intro g; exact bufLe_refl g
  | cons tr trs ih =>
      intro g
      exact bufLe_trans _ _ _ (bufLe_processTrack g tr) (ih _)

theorem processOff_witnessed (g : GState) (ts : TrackState) (t : Nat) (m : Msg)
    (h : witnessedOn g ts.active) :
    witnessedOn (processOff g ts t m).1 (processOff g ts t m).2.active := by
  unfold processOff
  cases hl : alistLookup ts.active m.pitch with
  | none => exact h
  | some idx =>
      intro q hq
      obtain ⟨e, he, h1, h2⟩ := h q (mem_alistErase ts.active m.pitch q hq)
      exact ⟨e, mem_bufGet_bufAppend g.buffers idx q.2 (t, m) e he, h1, h2⟩

theorem processOn_witnessed (g : GState) (ts : TrackState) (t r : Nat) (m : Msg)
    (hm : m.isOnMsg = true) (h : witnessedOn g ts.active) :
    witnessedOn (processOn g ts t r m).1 (processOn g ts t r m).2.active := by
  have hAct := allocRank_active g ts r
  have hBuf := allocRank_buffers g ts r
  simp only [processOn, hAct]
  cases hl : alistLookup ts.active m.pitch with
  | some prev =>
      intro q hq
      rcases mem_alistSet ts.active m.pitch (allocRank g ts r).1 q hq with hq | hq
      · subst hq
        refine ⟨(t, m), ?_, hm, rfl⟩
        show (t, m) ∈ bufGet (bufAppend (bufAppend (allocRank g ts r).2.1.buffers prev
          (t, Msg.note_off m.channel m.pitch 0)) (allocRank g ts r).1 (t, m)) (allocRank g ts r).1
        rw [bufGet_bufAppend, if_pos rfl]
        exact List.mem_append_right _ (List.mem_singleton.mpr rfl)
      · obtain ⟨e, he, h1, h2⟩ := h q hq
        refine ⟨e, ?_, h1, h2⟩
        show e ∈ bufGet (bufAppend (bufAppend (allocRank g ts r).2.1.buffers prev
          (t, Msg.note_off m.channel m.pitch 0)) (allocRank g ts r).1 (t, m)) q.2
        rw [hBuf]
        exact mem_bufGet_bufAppend _ _ _ _ _ (mem_bufGet_bufAppend _ _ _ _ _ he)
  | none =>
      intro q hq
      rcases mem_alistSet ts.active m.pitch (allocRank g ts r).1 q hq with hq | hq
      · subst hq
        refine ⟨(t, m), ?_, hm, rfl⟩
        show (t, m) ∈ bufGet (bufAppend (allocRank g ts r).2.1.buffers
          (allocRank g ts r).1 (t, m)) (allocRank g ts r).1
        rw [bufGet_bufAppend, if_pos rfl]
        exact List.mem_append_right _ (List.mem_singleton.mpr rfl)
      · obtain ⟨e, he, h1, h2⟩ := h q hq
        refine ⟨e, ?_, h1, h2⟩
        show e ∈ bufGet (bufAppend (allocRank g ts r).2.1.buffers
          (allocRank g ts r).1 (t, m)) q.2
        rw [hBuf]
        exact mem_bufGet_bufAppend _ _ _ _ _ he

theorem processOthers_witnessed (g : GState) (ts : TrackState) (t : Nat) (msgs : List Msg)
    (h : witnessedOn g ts.active) :
    witnessedOn (processOthers g ts t msgs).1 (processOthers g ts t msgs).2.active := by
  unfold processOthers
  cases msgs with
  | nil => exact h
  | cons m ms =>
      cases ts.nonNoteTarget with
      | some idx =>
          exact witnessedOn_mono g _ ts.active (bufLe_appendEvents (m :: ms) g idx t) h
      | none =>
          exact witnessedOn_mono g _ ts.active
            (bufLe_appendEvents (m :: ms) { g with nextIdx := g.nextIdx + 1 } g.nextIdx t) h

theorem processOffs_witnessed :
    ∀ (ms : List Msg) (g : GState) (ts : TrackState) (t : Nat),
      witnessedOn g ts.active → witnessedOn (processOffs g ts t ms).1 (processOffs g ts t ms).2.active := by
  intro ms
  induction ms with
  | nil => intro g ts t h; exact h
  | cons m ms ih =>
      intro g ts t h
      exact ih _ _ t (processOff_witnessed g ts t m h)

theorem processOns_witnessed :
    ∀ (ms : List Msg) (g : GState) (ts : TrackState) (t rk : Nat),
      (∀ m ∈ ms, m.isOnMsg = true) → witnessedOn g ts.active →
      witnessedOn (processOns g ts t rk ms).1 (processOns g ts t rk ms).2.active := by
  intro ms
  induction ms with
  | nil => intro g ts t rk hms h; exact h
  | cons m ms ih =>
      intro g ts t rk hms h
      exact ih _ _ t (rk + 1) (fun x hx => hms x (List.mem_cons_of_mem m hx))
        (processOn_witnessed g ts t rk m (hms m (List.mem_cons_self m ms)) h)

theorem processGroup_witnessed (g : GState) (ts : TrackState) (t : Nat) (msgs : List Msg)
    (h : witnessedOn g ts.active) :
    witnessedOn (processGroup g ts t msgs).1 (processGroup g ts t msgs).2.active := by
  simp only [processGroup]
  apply processOthers_witnessed
  apply processOns_witnessed
  · intro m hm
    have hmem : m ∈ msgs.filter Msg.isOnMsg :=
      (List.Perm.mem_iff (List.perm_insertionSort _ _)).mp hm
    exact (List.mem_filter.mp hmem).2
  · apply processOffs_witnessed
    exact h

theorem processGroups_witnessed :
    ∀ (gs : List (Nat × List Msg)) (g : GState) (ts : TrackState),
      witnessedOn g ts.active →
      witnessedOn (processGroups g ts gs).1 (processGroups g ts gs).2.active := by
  intro gs
  induction gs with
  | nil => intro g ts h; exact h
  | cons gr gs ih =>
      intro g ts h
      obtain ⟨t, msgs⟩ := gr
      exact ih _ _ (processGroup_witnessed g ts t msgs h)

theorem processTrack_witnessed (g : GState) (tr : List (Nat × Msg)) :
    witnessedOn (processTrack g tr).1 (processTrack g tr).2.active :=
  processGroups_witnessed _ g initTS (fun q hq => absurd hq (List.not_mem_nil q))

theorem processTracksStates_keys :
    ∀ (tracks : List (List (Nat × Msg))) (g : GState),
      ∀ ts ∈ (processTracksStates g tracks).2, keysNodup ts.active := by
  intro tracks
  induction tracks with
  | nil => intro g ts hts; cases hts
  | cons tr trs ih =>
      intro g ts hts
      rcases List.mem_cons.mp hts with hts | hts
      · exact hts ▸ processTrack_keys g tr
      · exact ih _ ts hts

theorem processTracksStates_witnessed :
    ∀ (tracks : List (List (Nat × Msg))) (g : GState),
      ∀ ts ∈ (processTracksStates g tracks).2,
        witnessedOn (processTracksStates g tracks).1 ts.active := by
  intro tracks
  induction tracks with
  | nil => intro g ts hts; cases hts
  | cons tr trs ih =>
      intro g ts hts
      rcases List.mem_cons.mp hts with hts | hts
      · refine hts ▸ witnessedOn_mono (processTrack g tr).1 _ _
          (bufLe_processTracksStates trs (processTrack g tr).1) (processTrack_witnessed g tr)
      · exact ih _ ts hts

/-- C8: for every input and output-track index, the number of NoteOn
events routed to that index equals the number of NoteOff events (original
or synthetic, velocity-0 NoteOns included) plus the notes still active at
end of input attributed to that index by the final per-track states
(`leftover`); moreover each final ActivePitchMap has at most one entry per
distinct pitch (its keys are pairwise distinct), and each entry
(pitch, index) is witnessed by a NoteOn event of that pitch buffered on
that output index — so the surplus is at most one unmatched NoteOn per
distinct pitch ever active on that track. -/
theorem noteOn_noteOff_balance (tracks : List (List (Nat × Msg))) (i : Nat) :
    (countOn (bufGet (processTracks tracks).buffers i) =
        countOff (bufGet (processTracks tracks).buffers i) +
          leftover (processTracksStates initG tracks).2 i) ∧
      (∀ ts ∈ (processTracksStates initG tracks).2, keysNodup ts.active) ∧
      ∀ ts ∈ (processTracksStates initG tracks).2, ∀ q ∈ ts.active,
        ∃ e ∈ bufGet (processTracks tracks).buffers q.2,
          e.2.isOnMsg = true ∧ e.2.pitch = q.1 := by
  refine ⟨?_, processTracksStates_keys tracks initG, ?_⟩
  · have hb := processTracksStates_bal tracks initG (fun _ => 0)
      (fun j => by
        show countOn (bufGet initG.buffers j) = countOff (bufGet initG.buffers j) + 0
        rfl) i
    simpa [processTracks] using hb
  · intro ts hts q hq
    exact processTracksStates_witnessed tracks initG ts hts q hq

/-- Witness for C8: one original track holding a single NoteOn(60) that
never receives a NoteOff; output index 0 has one NoteOn, zero NoteOffs and
one leftover active pitch, witnessed by the buffered NoteOn. -/
theorem noteOn_noteOff_balance_witness :
    (countOn (bufGet (processTracks [[(0, Msg.note_on 0 60 64)]]).buffers 0) =
        countOff (bufGet (processTracks [[(0, Msg.note_on 0 60 64)]]).buffers 0) +
          leftover (processTracksStates initG [[(0, Msg.note_on 0 60 64)]]).2 0) ∧
      keysNodup
        ({ rankMap := [(0, 0)], active := [(60, 0)],
           nonNoteTarget := some 0 } : TrackState).active ∧
      ∃ e ∈ bufGet (processTracks [[(0, Msg.note_on 0 60 64)]]).buffers 0,
        e.2.isOnMsg = true ∧ e.2.pitch = 60 := by
  refine ⟨(noteOn_noteOff_balance [[(0, Msg.note_on 0 60 64)]] 0).1, ?_, ?_⟩
  · exact (noteOn_noteOff_balance [[(0, Msg.note_on 0 60 64)]] 0).2.1
      { rankMap := [(0, 0)], active := [(60, 0)], nonNoteTarget := some 0 } (by decide)
  · exact (noteOn_noteOff_balance [[(0, Msg.note_on 0 60 64)]] 0).2.2
      { rankMap := [(0, 0)], active := [(60, 0)], nonNoteTarget := some 0 } (by decide)
      (60, 0) (by decide)
